import Mathlib

/-! The letter-subset word puzzle of `word_play2.cc`.

A verification development for `src/word_play2.cc`.  The program reads the
puzzle letters (`argv[1]`, the "tokens") and a dictionary file, stores the
dictionary words that may fit in an array of hash sets indexed by word length
(`main`), and prints the stored words whose letter histogram fits in the
histogram of the tokens (`print_words`).

Modelling conventions.

* A C++ `string` is the list of its character codes (`Str`); the dictionary
  file is the list of the lines that `getline` returns.  The `<cctype>`
  functions are those of the "C" locale (the program never calls `setlocale`).
* `unsigned int` values are natural numbers.  A signature is below `2^27`,
  so `|=` and `&` never leave 32 bits; counters and lengths would
  only wrap for strings of `2^31` characters or more, which are outside the
  model.
* `hash_set<string>` is a duplicate-free list; `insert` appends a new element
  and leaves the set alone when the element is present.  The order in which
  the real container iterates depends on the hash values; statements below
  speak about membership, counts and lengths only.
* `words` is a pointer to the first of `tokens.length()` hash sets allocated
  by `new[]`.  It is modelled as the map from an index `i` to the contents of
  `words[i]`; the indices below `tokens.length()` are the allocated ones, the
  only ones `print_words` reads.
* `get_counts` increments `counts[s[i]-97]` in an array of 32 slots.
* The program has two accesses that can leave an array: the store
  `words[s.length()]` of line 141 for a word as long as the tokens, and the
  increment `counts[s[i]-97]` of line 58 for a character of the tokens outside
  the codes 97..127.  C++ leaves the behaviour of such a run undefined.  The
  functions `main`, `main_words`, `print_words`, `get_counts` describe the
  contents of the arrays for the accesses inside them (an access outside is
  given no effect on them); `main_checked` follows the same lines with every
  index checked and is `none` for a run that leaves an array.  A run inside
  the arrays writes what `main` gives (`main_checked_eq`,
  `main_checked_of_in_bounds`).
* The output of the program is the list of the lines written before the
  `Total matches:` line, together with the number written on that line.
-/

namespace WordPlay

/-- A C++ `string`, as the list of its character codes. -/
abbrev Str := List Nat

/-- The character codes of a string literal, for readable examples. -/
def str (s : String) : Str := s.toList.map Char.toNat

/-- The constant `ALPHABET_LENGTH` (line 19). -/
def ALPHABET_LENGTH : Nat := 32

/-- `isalpha` in the "C" locale: `A`..`Z` or `a`..`z`. -/
def isalpha (c : Nat) : Bool := (65 ≤ c && c ≤ 90) || (97 ≤ c && c ≤ 122)

/-- `isupper` in the "C" locale: `A`..`Z`. -/
def isupper (c : Nat) : Bool := 65 ≤ c && c ≤ 90

/-- `isdigit`: `0`..`9`. -/
def isdigit (c : Nat) : Bool := 48 ≤ c && c ≤ 57

/-- `tolower` in the "C" locale: `A`..`Z` are moved to `a`..`z`, every other
character is kept. -/
def tolower (c : Nat) : Nat := if 65 ≤ c ∧ c ≤ 90 then c + 32 else c

/-- The table `shift_map` of `get_bits` (lines 39-40): 97 zeros, then the
powers of two for the codes 97 (`a`) and up. -/
def shift_map : List Nat :=
  [0,0,0,0,0,0,0,0,0,0,0,0,0,0,0,0,0,0,0,0,0,0,0,0,0,0,0,0,0,0,0,0,0,0,0,0,0,0,0,0,0,0,0,0,0,0,0,0,0,
   0,0,0,0,0,0,0,0,0,0,0,0,0,0,0,0,0,0,0,0,0,0,0,0,0,0,0,0,0,0,0,0,0,0,0,0,0,0,0,0,0,0,0,0,0,0,0,0,
   1, 2, 4, 8, 16, 32, 64, 128, 256, 512, 1024, 2048, 4096, 8192, 16384, 32768, 65536, 131072,
   262144, 524288, 1048576, 2097152, 4194304, 8388608, 16777216, 33554432, 67108864]

/-- The loop of `get_bits` (lines 42-49) with the accumulator `res`: a
character that is not alphabetic makes the function return 0 at once. -/
def get_bits_loop (res : Nat) : Str → Nat
  | [] => res
  | c :: cs => if isalpha c then get_bits_loop (res ||| shift_map.getD c 0) cs else 0

/-- `get_bits` (lines 37-50): the signature of a string. -/
def get_bits (s : Str) : Nat := get_bits_loop 0 s

/-- The statement `++counts[idx]` of `get_counts` on an array of
`counts.length` slots, for an index inside the array.  An index outside the
array, where the behaviour of the program is undefined, is given no effect on
the slots; `incr_checked` is the statement with the bounds. -/
def incr (counts : List Nat) (idx : Int) : List Nat :=
  if 0 ≤ idx ∧ idx < counts.length then counts.set idx.toNat (counts.getD idx.toNat 0 + 1)
  else counts

/-- `get_counts` (lines 54-59): the array is zeroed by `memset`, then the slot
`s[i]-97` is incremented for every character of `s`.  This is the histogram
for the strings whose characters have their index inside the array (the
codes 97..127); `get_counts_checked` is the function with the bounds. -/
def get_counts (s : Str) : List Nat :=
  s.foldl (fun (counts : List Nat) (c : Nat) => incr counts ((c : Int) - 97)) (List.replicate ALPHABET_LENGTH 0)

/-- The comparison loop of `print_words` (lines 75-78): `match` starts true
and is cleared at the first slot `j` with `word_counts[j] > token_counts[j]`. -/
def counts_match (word_counts token_counts : List Nat) : Bool :=
  (List.range ALPHABET_LENGTH).foldl
    (fun m j => if m && decide (word_counts.getD j 0 > token_counts.getD j 0) then false else m)
    true

/-- The method `hash_set::insert`: a set holds an element once. -/
def hash_set_insert (set : List Str) (s : Str) : List Str :=
  if s ∈ set then set else set ++ [s]

/-- The statement `words[i].insert(s)` (line 141), for an index `i` of the
array.  For `i` at or past the size of the array, where the behaviour of the
program is undefined, the word is kept at the index `i`, which no loop reads;
`bucket_insert_checked` is the statement with the bounds. -/
def bucket_insert (words : Nat → List Str) (i : Nat) (s : Str) : Nat → List Str :=
  fun k => if k = i then hash_set_insert (words k) s else words k

/-- The method `string::find_first_of(char)`: the position of the first
occurrence of `c`, or `none` for `npos`. -/
def find_first_of : Str → Nat → Option Nat
  | [], _ => none
  | x :: xs, c => if x = c then some 0 else (find_first_of xs c).map (· + 1)

/-- Lines 125-129 of `main`: the line is cut at its first apostrophe (code
39) when it has one, otherwise at its first slash (code 47) when it has one.
`npos` is larger than every length, so the test `delim_pos < s.length()`
holds exactly when the character was found. -/
def strip_extra (s : Str) : Str :=
  match find_first_of s 39 with
  | some delim_pos => s.take delim_pos
  | none =>
    match find_first_of s 47 with
    | some delim_pos => s.take delim_pos
    | none => s

/-- The body of the reading loop of `main` up to the insertion (lines
121-139): `none` when the line is skipped by a `continue`, otherwise the
string that line 141 inserts.  `s[0]` of an empty line is the terminating
character 0. -/
def candidate (length_to_match bits_to_match : Nat) (line : Str) : Option Str :=
  if isupper (line.headD 0) || isdigit (line.headD 0) then none
  else
    let s := strip_extra line
    if s.length > length_to_match then none
    else
      let s := s.map tolower
      let bits := get_bits s
      if bits == 0 || (bits &&& bits_to_match) != bits then none
      else some s

/-- One round of the reading loop of `main` (lines 119-141). -/
def read_line (length_to_match bits_to_match : Nat) (words : Nat → List Str) (line : Str) :
    Nat → List Str :=
  match candidate length_to_match bits_to_match line with
  | none => words
  | some s => bucket_insert words s.length s

/-- The reading loop of `main` (lines 112-142), from the empty hash sets. -/
def build_index (length_to_match bits_to_match : Nat) (dictionary : List Str) : Nat → List Str :=
  dictionary.foldl (read_line length_to_match bits_to_match) (fun _ => [])

/-- `print_words` (lines 63-87): the words written, in order, and the number
written after `Total matches:`.  The outer loop reads `words[i]` for
`i < tokens.length()`. -/
def print_words (tokens : Str) (words : Nat → List Str) : List Str × Nat :=
  let token_counts := get_counts tokens
  (List.range tokens.length).foldl
    (fun out i =>
      (words i).foldl
        (fun out w =>
          if counts_match (get_counts w) token_counts then (out.1 ++ [w], out.2 + 1) else out)
        out)
    ([], 0)

/-- The array `words` of `main` when the reading loop has ended (line 143), on
the letters `argv1` and the lines of the opened dictionary file. -/
def main_words (argv1 : Str) (dictionary : List Str) : Nat → List Str :=
  let tokens := argv1.map tolower
  let length_to_match := tokens.length
  let bits_to_match := get_bits tokens
  build_index length_to_match bits_to_match dictionary

/-- `main` (lines 106-145) on the letters `argv1` and the lines of the opened
dictionary file: the output of the call `print_words(tokens, words)`. -/
def main (argv1 : Str) (dictionary : List Str) : List Str × Nat :=
  let tokens := argv1.map tolower
  print_words tokens (main_words argv1 dictionary)

/-- The dictionary of the end-to-end example of the specification. -/
def example_dictionary : List Str :=
  [str "cat", str "cats", str "act", str "Cats", str "dog", str "ca's"]

/-- The lowercase letters `a`..`z`. -/
def islower (c : Nat) : Bool := 97 ≤ c && c ≤ 122

/-- The variant of the loop body of `main` that the specification compares
the program with: the tests of lines 121-139 without the signature test
`(bits & bits_to_match) != bits`. -/
def candidate_variant (length_to_match : Nat) (line : Str) : Option Str :=
  if isupper (line.headD 0) || isdigit (line.headD 0) then none
  else
    let s := strip_extra line
    if s.length > length_to_match then none
    else
      let s := s.map tolower
      let bits := get_bits s
      if bits == 0 then none
      else some s

/-- One round of the reading loop of the variant. -/
def read_line_variant (length_to_match : Nat) (words : Nat → List Str) (line : Str) :
    Nat → List Str :=
  match candidate_variant length_to_match line with
  | none => words
  | some s => bucket_insert words s.length s

/-- The reading loop of the variant, from the empty hash sets. -/
def build_index_variant (length_to_match : Nat) (dictionary : List Str) : Nat → List Str :=
  dictionary.foldl (read_line_variant length_to_match) (fun _ => [])

/-- The variant of `main` without the signature test: the same tokens, the
index of the variant, the same `print_words`. -/
def main_variant (argv1 : Str) (dictionary : List Str) : List Str × Nat :=
  let tokens := argv1.map tolower
  print_words tokens (build_index_variant tokens.length dictionary)

/-- The index `s[i]-97` of `get_counts` (line 58) for the character code `c`.
The type `char` is signed: the codes 128..255 stand for the values
-128..-1. -/
def char_index (c : Nat) : Int :=
  if 128 ≤ c ∧ c < 256 then (c : Int) - 256 - 97 else (c : Int) - 97

/-- The statement `++counts[idx]` of `get_counts`, with the bounds of the
array: `none` when `idx` is not an index of `counts`. -/
def incr_checked (counts : List Nat) (idx : Int) : Option (List Nat) :=
  if 0 ≤ idx ∧ idx < counts.length then
    some (counts.set idx.toNat (counts.getD idx.toNat 0 + 1))
  else none

/-- `get_counts` (lines 54-59) with the bounds of the 32 slots: `none` when
some character of `s` has its index outside the array. -/
def get_counts_checked (s : Str) : Option (List Nat) :=
  s.foldl
    (fun (counts : Option (List Nat)) (c : Nat) =>
      counts.bind (fun cs => incr_checked cs (char_index c)))
    (some (List.replicate ALPHABET_LENGTH 0))

/-- The statement `words[i].insert(s)` (line 141) on the array of `size` hash
sets allocated at line 112: `none` when `i` is not below `size`. -/
def bucket_insert_checked (size : Nat) (words : Nat → List Str) (i : Nat) (s : Str) :
    Option (Nat → List Str) :=
  if i < size then some (bucket_insert words i s) else none

/-- One round of the reading loop of `main` (lines 119-141) on the array of
`size` hash sets. -/
def read_line_checked (length_to_match bits_to_match size : Nat) (words : Nat → List Str)
    (line : Str) : Option (Nat → List Str) :=
  match candidate length_to_match bits_to_match line with
  | none => some words
  | some s => bucket_insert_checked size words s.length s

/-- The reading loop of `main` (lines 112-142) on the array of `size` empty
hash sets. -/
def build_index_checked (length_to_match bits_to_match size : Nat) (dictionary : List Str) :
    Option (Nat → List Str) :=
  dictionary.foldl
    (fun (words : Option (Nat → List Str)) (line : Str) =>
      words.bind (fun ws => read_line_checked length_to_match bits_to_match size ws line))
    (some (fun _ => []))

/-- The treatment of one stored word in `print_words` (lines 74-83), with the
bounds of `word_counts`. -/
def print_word_checked (token_counts : List Nat) (out : Option (List Str × Nat)) (w : Str) :
    Option (List Str × Nat) :=
  out.bind (fun o =>
    (get_counts_checked w).bind (fun word_counts =>
      some (if counts_match word_counts token_counts then (o.1 ++ [w], o.2 + 1) else o)))

/-- `print_words` (lines 63-87) with the bounds of `token_counts` and
`word_counts`. -/
def print_words_checked (tokens : Str) (words : Nat → List Str) : Option (List Str × Nat) :=
  (get_counts_checked tokens).bind (fun token_counts =>
    (List.range tokens.length).foldl
      (fun (out : Option (List Str × Nat)) (i : Nat) =>
        (words i).foldl (print_word_checked token_counts) out)
      (some ([], 0)))

/-- `main` (lines 106-145) with the bounds of its arrays: `words` has
`tokens.length()` hash sets (line 112).  The result is `none` for a run with
an access outside an array, and the output of the run otherwise. -/
def main_checked (argv1 : Str) (dictionary : List Str) : Option (List Str × Nat) :=
  let tokens := argv1.map tolower
  let length_to_match := tokens.length
  let bits_to_match := get_bits tokens
  (build_index_checked length_to_match bits_to_match tokens.length dictionary).bind
    (fun words => print_words_checked tokens words)

/-! ## Characters -/

theorem tolower_tolower (c : Nat) : tolower (tolower c) = tolower c := by
  unfold tolower; split_ifs <;> omega

theorem map_tolower_idem (s : Str) : (s.map tolower).map tolower = s.map tolower := by
  simp [List.map_map, Function.comp_def, tolower_tolower]

theorem islower_iff (c : Nat) : islower c = true ↔ 97 ≤ c ∧ c ≤ 122 := by
  simp [islower]

theorem isalpha_iff (c : Nat) : isalpha c = true ↔ (65 ≤ c ∧ c ≤ 90) ∨ (97 ≤ c ∧ c ≤ 122) := by
  simp [isalpha]

theorem tolower_of_islower {c : Nat} (h : islower c = true) : tolower c = c := by
  rw [islower_iff] at h; unfold tolower; split_ifs <;> omega

theorem isalpha_tolower (c : Nat) : isalpha (tolower c) = isalpha c := by
  rw [Bool.eq_iff_iff, isalpha_iff, isalpha_iff]; unfold tolower; split_ifs <;> omega

theorem islower_tolower (c : Nat) : islower (tolower c) = isalpha c := by
  rw [Bool.eq_iff_iff, islower_iff, isalpha_iff]; unfold tolower; split_ifs <;> omega

theorem map_tolower_of_islower {s : Str} (h : ∀ c ∈ s, islower c = true) : s.map tolower = s := by
  induction s with
  | nil => rfl
  | cons c cs ih =>
    simp only [List.map_cons, List.mem_cons, forall_eq_or_imp] at h ⊢
    rw [tolower_of_islower h.1, ih h.2]

theorem shift_map_islower {c : Nat} (h : islower c = true) : shift_map.getD c 0 = 2 ^ (c - 97) := by
  rw [islower_iff] at h
  obtain ⟨h1, h2⟩ := h
  interval_cases c <;> rfl

theorem shift_map_isupper {c : Nat} (h : isupper c = true) : shift_map.getD c 0 = 0 := by
  simp only [isupper, Bool.and_eq_true, decide_eq_true_eq] at h
  obtain ⟨h1, h2⟩ := h
  interval_cases c <;> rfl

/-! ## The signature -/

theorem get_bits_loop_not_alpha {s : Str} (h : ∃ c ∈ s, isalpha c = false) (res : Nat) :
    get_bits_loop res s = 0 := by
  induction s generalizing res with
  | nil => simp at h
  | cons c cs ih =>
    simp only [get_bits_loop]
    by_cases hc : isalpha c = true
    · rw [if_pos hc]
      apply ih
      obtain ⟨d, hd, hd2⟩ := h
      rcases List.mem_cons.1 hd with rfl | hd
      · rw [hc] at hd2; cases hd2
      · exact ⟨d, hd, hd2⟩
    · rw [if_neg hc]

theorem get_bits_loop_testBit {s : Str} (h : ∀ c ∈ s, islower c = true) (res k : Nat) :
    (get_bits_loop res s).testBit k = (res.testBit k || decide (k + 97 ∈ s)) := by
  induction s generalizing res with
  | nil => simp [get_bits_loop]
  | cons c cs ih =>
    have hc : islower c = true := h c (List.mem_cons_self _ _)
    have hc2 : isalpha c = true := by
      rw [isalpha_iff]; rw [islower_iff] at hc; omega
    simp only [get_bits_loop, if_pos hc2]
    rw [ih (fun d hd => h d (List.mem_cons_of_mem _ hd)), shift_map_islower hc, Nat.testBit_or,
      Nat.testBit_two_pow]
    rw [islower_iff] at hc
    by_cases hk : k + 97 = c
    · have : c - 97 = k := by omega
      simp [hk, this]
    · have : ¬ c - 97 = k := by omega
      simp [hk, this, List.mem_cons]

theorem get_bits_testBit {s : Str} (h : ∀ c ∈ s, islower c = true) (k : Nat) :
    (get_bits s).testBit k = decide (k + 97 ∈ s) := by
  simp [get_bits, get_bits_loop_testBit h]

/-- After lowercasing, a non-zero signature means: not empty, and only the
letters `a`..`z`. -/
theorem get_bits_ne_zero_iff (s : Str) :
    get_bits (s.map tolower) ≠ 0 ↔ s ≠ [] ∧ ∀ c ∈ s, isalpha c = true := by
  constructor
  · intro h
    have hall : ∀ c ∈ s, isalpha c = true := by
      by_contra hcon
      push_neg at hcon
      obtain ⟨c, hc, hc2⟩ := hcon
      apply h
      apply get_bits_loop_not_alpha
      refine ⟨tolower c, List.mem_map_of_mem _ hc, ?_⟩
      rw [isalpha_tolower]; simpa using hc2
    refine ⟨?_, hall⟩
    rintro rfl
    exact h rfl
  · rintro ⟨hne, hall⟩ h0
    obtain ⟨c, cs, rfl⟩ := List.exists_cons_of_ne_nil hne
    have hlow : ∀ d ∈ (c :: cs).map tolower, islower d = true := by
      intro d hd
      obtain ⟨e, he, rfl⟩ := List.mem_map.1 hd
      rw [islower_tolower]; exact hall e he
    have hb := get_bits_testBit hlow (tolower c - 97)
    rw [h0, Nat.zero_testBit] at hb
    have hc := hlow (tolower c) (List.mem_map_of_mem _ (List.mem_cons_self _ _))
    rw [islower_iff] at hc
    have : tolower c - 97 + 97 = tolower c := by omega
    rw [this] at hb
    simp at hb

/-! ## The histogram -/

theorem incr_length (counts : List Nat) (idx : Int) : (incr counts idx).length = counts.length := by
  unfold incr; split_ifs <;> simp

theorem incr_getD (counts : List Nat) (c j : Nat) (hj : j < counts.length) :
    (incr counts ((c : Int) - 97)).getD j 0 = counts.getD j 0 + if c = j + 97 then 1 else 0 := by
  unfold incr
  split_ifs with h1 h2 h2
  · have e : ((c : Int) - 97).toNat = j := by omega
    simp [e, List.getElem?_set, hj]
  · have e : ((c : Int) - 97).toNat ≠ j := by omega
    simp [List.getElem?_set, e]
  · omega
  · simp

theorem foldl_incr (s : Str) (counts : List Nat) :
    (s.foldl (fun (counts : List Nat) (c : Nat) => incr counts ((c : Int) - 97)) counts).length = counts.length ∧
    ∀ j, j < counts.length →
      (s.foldl (fun (counts : List Nat) (c : Nat) => incr counts ((c : Int) - 97)) counts).getD j 0
        = counts.getD j 0 + s.count (j + 97) := by
  induction s generalizing counts with
  | nil => simp
  | cons c cs ih =>
    obtain ⟨h1, h2⟩ := ih (incr counts ((c : Int) - 97))
    rw [incr_length] at h1 h2
    refine ⟨h1, fun j hj => ?_⟩
    rw [List.foldl_cons, h2 j hj, incr_getD counts c j hj, List.count_cons]
    by_cases hc : c = j + 97
    · simp [hc]; omega
    · simp [hc]

theorem get_counts_length (s : Str) : (get_counts s).length = 32 := by
  have h := (foldl_incr s (List.replicate ALPHABET_LENGTH 0)).1
  simpa [get_counts, ALPHABET_LENGTH] using h

/-- Slot `j` of the histogram is the number of occurrences of the character
`j + 97` in the string. -/
theorem get_counts_getD (s : Str) (j : Nat) (hj : j < 32) :
    (get_counts s).getD j 0 = s.count (j + 97) := by
  have h := (foldl_incr s (List.replicate ALPHABET_LENGTH 0)).2 j
    (by simpa [ALPHABET_LENGTH] using hj)
  unfold get_counts
  rw [h]
  have z : (List.replicate ALPHABET_LENGTH 0).getD j 0 = 0 := by
    unfold ALPHABET_LENGTH
    interval_cases j <;> rfl
  rw [z, Nat.zero_add]

theorem foldl_clear_false (f : Nat → Bool) (l : List Nat) :
    l.foldl (fun m j => if m && f j then false else m) false = false := by
  induction l with
  | nil => rfl
  | cons a l ih => simpa using ih

theorem foldl_clear_true (f : Nat → Bool) (l : List Nat) :
    l.foldl (fun m j => if m && f j then false else m) true = true ↔ ∀ j ∈ l, f j = false := by
  induction l with
  | nil => simp
  | cons a l ih =>
    rw [List.foldl_cons]
    by_cases ha : f a = true
    · have e : (if (true && f a) = true then false else true) = false := by simp [ha]
      rw [e, foldl_clear_false]
      simp [ha]
    · simp only [Bool.not_eq_true] at ha
      have e : (if (true && f a) = true then false else true) = true := by simp [ha]
      rw [e, ih]
      simp [ha]

theorem counts_match_iff (wc tc : List Nat) :
    counts_match wc tc = true ↔ ∀ j, j < 32 → wc.getD j 0 ≤ tc.getD j 0 := by
  unfold counts_match
  rw [foldl_clear_true (fun j => decide (wc.getD j 0 > tc.getD j 0))]
  simp [ALPHABET_LENGTH]

/-- The histogram comparison of `print_words`, in terms of occurrence counts. -/
theorem counts_match_get_counts (w t : Str) :
    counts_match (get_counts w) (get_counts t) = true ↔
      ∀ j, j < 32 → w.count (j + 97) ≤ t.count (j + 97) := by
  rw [counts_match_iff]
  constructor
  · intro h j hj
    have := h j hj
    rwa [get_counts_getD w j hj, get_counts_getD t j hj] at this
  · intro h j hj
    rw [get_counts_getD w j hj, get_counts_getD t j hj]
    exact h j hj

/-! ## The reading loop and the index -/

theorem candidate_eq_some_iff (n b : Nat) (line w : Str) :
    candidate n b line = some w ↔
      isupper (line.headD 0) = false ∧ isdigit (line.headD 0) = false ∧
      (strip_extra line).length ≤ n ∧ w = (strip_extra line).map tolower ∧
      get_bits w ≠ 0 ∧ get_bits w &&& b = get_bits w := by
  unfold candidate
  by_cases h1 : (isupper (line.headD 0) || isdigit (line.headD 0)) = true
  · rw [if_pos h1]
    simp only [Bool.or_eq_true] at h1
    constructor
    · intro h; cases h
    · rintro ⟨a, c, -⟩
      rcases h1 with h1 | h1
      · rw [a] at h1; cases h1
      · rw [c] at h1; cases h1
  · rw [if_neg h1]
    simp only [Bool.or_eq_true, not_or, Bool.not_eq_true] at h1
    by_cases h2 : (strip_extra line).length > n
    · simp only [h2, if_true]
      constructor
      · intro h; cases h
      · rintro ⟨-, -, c, -⟩; omega
    · simp only [h2, if_false]
      by_cases h3 : (get_bits ((strip_extra line).map tolower) == 0 ||
          (get_bits ((strip_extra line).map tolower) &&& b)
            != get_bits ((strip_extra line).map tolower)) = true
      · rw [if_pos h3]
        constructor
        · intro h; cases h
        · rintro ⟨-, -, -, rfl, c, d⟩
          simp only [Bool.or_eq_true, beq_iff_eq, bne_iff_ne, ne_eq] at h3
          rcases h3 with h3 | h3
          · exact absurd h3 c
          · exact absurd d h3
      · rw [if_neg h3]
        simp only [Bool.or_eq_true, beq_iff_eq, bne_iff_ne, ne_eq, not_or, not_not] at h3
        constructor
        · intro h
          cases h
          exact ⟨h1.1, h1.2, by omega, rfl, h3.1, h3.2⟩
        · rintro ⟨-, -, -, rfl, -, -⟩
          rfl

theorem mem_hash_set_insert (set : List Str) (s w : Str) :
    w ∈ hash_set_insert set s ↔ w ∈ set ∨ w = s := by
  unfold hash_set_insert
  split_ifs with h
  · constructor
    · exact Or.inl
    · rintro (h1 | rfl)
      · exact h1
      · exact h
  · simp

theorem nodup_hash_set_insert {set : List Str} (h : set.Nodup) (s : Str) :
    (hash_set_insert set s).Nodup := by
  unfold hash_set_insert
  split_ifs with hs
  · exact h
  · exact List.Nodup.append h (List.nodup_singleton s) (by simpa using hs)

theorem mem_read_line (n b : Nat) (words : Nat → List Str) (line w : Str) (k : Nat) :
    w ∈ read_line n b words line k ↔
      w ∈ words k ∨ (candidate n b line = some w ∧ w.length = k) := by
  unfold read_line
  cases hc : candidate n b line with
  | none => simp
  | some s =>
    simp only [bucket_insert, Option.some.injEq]
    split_ifs with hk
    · rw [mem_hash_set_insert]
      constructor
      · rintro (h | rfl)
        · exact Or.inl h
        · exact Or.inr ⟨rfl, hk.symm⟩
      · rintro (h | ⟨rfl, -⟩)
        · exact Or.inl h
        · exact Or.inr rfl
    · constructor
      · exact Or.inl
      · rintro (h | ⟨rfl, h2⟩)
        · exact h
        · exact absurd h2.symm hk

theorem nodup_read_line (n b : Nat) {words : Nat → List Str} (h : ∀ k, (words k).Nodup)
    (line : Str) (k : Nat) : (read_line n b words line k).Nodup := by
  unfold read_line
  cases candidate n b line with
  | none => exact h k
  | some s =>
    simp only [bucket_insert]
    split_ifs
    · exact nodup_hash_set_insert (h k) s
    · exact h k

theorem mem_foldl_read_line (n b : Nat) (dictionary : List Str) (words : Nat → List Str)
    (w : Str) (k : Nat) :
    w ∈ dictionary.foldl (read_line n b) words k ↔
      w ∈ words k ∨ ∃ line ∈ dictionary, candidate n b line = some w ∧ w.length = k := by
  induction dictionary generalizing words with
  | nil => simp
  | cons l ls ih =>
    rw [List.foldl_cons, ih, mem_read_line]
    simp only [List.mem_cons, exists_eq_or_imp]
    tauto

theorem nodup_foldl_read_line (n b : Nat) (dictionary : List Str) {words : Nat → List Str}
    (h : ∀ k, (words k).Nodup) (k : Nat) : (dictionary.foldl (read_line n b) words k).Nodup := by
  induction dictionary generalizing words with
  | nil => exact h k
  | cons l ls ih => exact ih (nodup_read_line n b h l)

/-- The contents of bucket `k` after the reading loop. -/
theorem mem_build_index (n b : Nat) (dictionary : List Str) (w : Str) (k : Nat) :
    w ∈ build_index n b dictionary k ↔
      ∃ line ∈ dictionary, candidate n b line = some w ∧ w.length = k := by
  unfold build_index
  rw [mem_foldl_read_line]
  simp

theorem nodup_build_index (n b : Nat) (dictionary : List Str) (k : Nat) :
    (build_index n b dictionary k).Nodup :=
  nodup_foldl_read_line n b dictionary (fun _ => List.nodup_nil) k

/-! ## The printing loop -/

theorem foldl_emit (p : Str → Bool) (l : List Str) (out : List Str × Nat) :
    l.foldl (fun (out : List Str × Nat) w => if p w then (out.1 ++ [w], out.2 + 1) else out) out
      = (out.1 ++ l.filter p, out.2 + (l.filter p).length) := by
  induction l generalizing out with
  | nil => simp
  | cons a l ih =>
    rw [List.foldl_cons, ih]
    by_cases ha : p a = true
    · simp [ha, List.filter_cons, Nat.add_assoc, Nat.add_comm 1]
    · simp [ha, List.filter_cons]

theorem foldl_buckets (p : Str → Bool) (words : Nat → List Str) (is : List Nat)
    (out : List Str × Nat) :
    is.foldl (fun (out : List Str × Nat) i =>
        (words i).foldl
          (fun (out : List Str × Nat) w => if p w then (out.1 ++ [w], out.2 + 1) else out) out)
        out
      = (out.1 ++ is.flatMap (fun i => (words i).filter p),
         out.2 + (is.flatMap (fun i => (words i).filter p)).length) := by
  induction is generalizing out with
  | nil => simp
  | cons a l ih =>
    rw [List.foldl_cons, foldl_emit, ih]
    simp [List.flatMap_cons, Nat.add_assoc]

/-- The output of `print_words`: the stored words of the buckets
`0 .. tokens.length()-1` that pass the histogram comparison, and their number. -/
theorem print_words_eq (tokens : Str) (words : Nat → List Str) :
    print_words tokens words =
      ((List.range tokens.length).flatMap
          (fun i => (words i).filter (fun w => counts_match (get_counts w) (get_counts tokens))),
       ((List.range tokens.length).flatMap
          (fun i => (words i).filter
            (fun w => counts_match (get_counts w) (get_counts tokens)))).length) := by
  unfold print_words
  have h := foldl_buckets (fun w => counts_match (get_counts w) (get_counts tokens)) words
    (List.range tokens.length) ([], 0)
  simpa using h

theorem mem_print_words (tokens : Str) (words : Nat → List Str) (w : Str) :
    w ∈ (print_words tokens words).1 ↔
      ∃ i, i < tokens.length ∧ w ∈ words i ∧
        counts_match (get_counts w) (get_counts tokens) = true := by
  rw [print_words_eq]
  simp only [List.mem_flatMap, List.mem_range, List.mem_filter]

theorem print_words_total (tokens : Str) (words : Nat → List Str) :
    (print_words tokens words).2 = (print_words tokens words).1.length := by
  rw [print_words_eq]

/-! ## The whole program -/

/-- The words written by the program: the strings inserted for some line of
the dictionary that are shorter than the tokens and pass the histogram
comparison. -/
theorem mem_main (argv1 : Str) (dictionary : List Str) (w : Str) :
    w ∈ (main argv1 dictionary).1 ↔
      (∃ line ∈ dictionary,
        candidate argv1.length (get_bits (argv1.map tolower)) line = some w) ∧
      w.length < argv1.length ∧
      counts_match (get_counts w) (get_counts (argv1.map tolower)) = true := by
  unfold main main_words
  simp only [mem_print_words, mem_build_index, List.length_map]
  constructor
  · rintro ⟨i, hi, ⟨line, hl, hc, rfl⟩, hm⟩
    exact ⟨⟨line, hl, hc⟩, hi, hm⟩
  · rintro ⟨⟨line, hl, hc⟩, hi, hm⟩
    exact ⟨w.length, hi, ⟨line, hl, hc, rfl⟩, hm⟩

theorem main_total (argv1 : Str) (dictionary : List Str) :
    (main argv1 dictionary).2 = (main argv1 dictionary).1.length := by
  unfold main
  exact print_words_total _ _

theorem nodup_main (argv1 : Str) (dictionary : List Str) : (main argv1 dictionary).1.Nodup := by
  unfold main main_words
  simp only [print_words_eq]
  rw [List.nodup_flatMap]
  refine ⟨fun i _ => List.Nodup.filter _ (nodup_build_index _ _ _ i), ?_⟩
  refine List.Pairwise.imp_of_mem ?_ (List.nodup_range _)
  intro i j _ _ hij
  intro w hwi hwj
  rw [List.mem_filter, mem_build_index] at hwi hwj
  obtain ⟨⟨_, _, _, e1⟩, _⟩ := hwi
  obtain ⟨⟨_, _, _, e2⟩, _⟩ := hwj
  exact hij (e1.symm.trans e2)

/-- Two runs that write the same set of words have the same output up to the
order of the lines, and the same total. -/
theorem main_total_congr {t t2 : Str} {d d2 : List Str}
    (h : ∀ w, w ∈ (main t d).1 ↔ w ∈ (main t2 d2).1) : (main t d).2 = (main t2 d2).2 := by
  rw [main_total, main_total]
  exact ((List.perm_ext_iff_of_nodup (nodup_main t d) (nodup_main t2 d2)).2 h).length_eq

/-! ## Annotation stripping -/

theorem find_first_of_eq_none {s : Str} {c : Nat} (h : c ∉ s) : find_first_of s c = none := by
  induction s with
  | nil => rfl
  | cons x xs ih =>
    simp only [List.mem_cons, not_or] at h
    simp [find_first_of, Ne.symm h.1, ih h.2]

theorem find_first_of_append_cons {w : Str} {c : Nat} (h : c ∉ w) (x : Str) :
    find_first_of (w ++ c :: x) c = some w.length := by
  induction w with
  | nil => simp [find_first_of]
  | cons y ys ih =>
    simp only [List.mem_cons, not_or] at h
    simp [find_first_of, Ne.symm h.1, ih h.2]

theorem strip_extra_apostrophe {w : Str} (h : 39 ∉ w) (x : Str) :
    strip_extra (w ++ 39 :: x) = w := by
  simp [strip_extra, find_first_of_append_cons h]

theorem strip_extra_slash {w x : Str} (h1 : 39 ∉ w) (h2 : 47 ∉ w) (h3 : 39 ∉ x) :
    strip_extra (w ++ 47 :: x) = w := by
  have h : 39 ∉ w ++ 47 :: x := by simp [h1, h3]
  simp [strip_extra, find_first_of_eq_none h, find_first_of_append_cons h2]

theorem strip_extra_plain {w : Str} (h1 : 39 ∉ w) (h2 : 47 ∉ w) : strip_extra w = w := by
  simp [strip_extra, find_first_of_eq_none h1, find_first_of_eq_none h2]

theorem not_mem_of_islower {w : Str} (h : ∀ c ∈ w, islower c = true) {d : Nat}
    (hd : islower d = false) : d ∉ w := by
  intro hm
  rw [h d hm] at hd
  cases hd

theorem headD_append_cons (w : Str) (d : Nat) (x : Str) (h : ∀ c ∈ w, islower c = true)
    (hu : isupper d = false) (hg : isdigit d = false) :
    (isupper ((w ++ d :: x).headD 0) || isdigit ((w ++ d :: x).headD 0)) = false ∧
    (isupper (w.headD 0) || isdigit (w.headD 0)) = false := by
  cases w with
  | nil => exact ⟨by simp [hu, hg], by decide⟩
  | cons a as =>
    have ha := h a (List.mem_cons_self _ _)
    rw [islower_iff] at ha
    have e1 : isupper a = false := by simp [isupper]; omega
    have e2 : isdigit a = false := by simp [isdigit]; omega
    simp [e1, e2]

theorem candidate_congr {n b : Nat} {l1 l2 : Str}
    (hh : (isupper (l1.headD 0) || isdigit (l1.headD 0))
      = (isupper (l2.headD 0) || isdigit (l2.headD 0)))
    (hs : strip_extra l1 = strip_extra l2) : candidate n b l1 = candidate n b l2 := by
  unfold candidate
  rw [hh, hs]

/-- Lines with the same `candidate` leave the same index, wherever they stand. -/
theorem build_index_congr {n b : Nat} {l1 l2 : Str} (h : candidate n b l1 = candidate n b l2)
    (pre post : List Str) :
    build_index n b (pre ++ l1 :: post) = build_index n b (pre ++ l2 :: post) := by
  unfold build_index
  simp only [List.foldl_append, List.foldl_cons]
  have e : ∀ words, read_line n b words l1 = read_line n b words l2 := by
    intro words
    unfold read_line
    rw [h]
  rw [e]

theorem main_congr {argv1 : Str} {l1 l2 : Str}
    (h : candidate (argv1.map tolower).length (get_bits (argv1.map tolower)) l1
      = candidate (argv1.map tolower).length (get_bits (argv1.map tolower)) l2)
    (pre post : List Str) :
    main argv1 (pre ++ l1 :: post) = main argv1 (pre ++ l2 :: post) := by
  unfold main main_words
  simp only
  rw [build_index_congr h]

theorem candidate_of_proper_noun {line : Str}
    (h : isupper (line.headD 0) = true ∨ isdigit (line.headD 0) = true) (n b : Nat) :
    candidate n b line = none := by
  unfold candidate
  rw [if_pos]
  simpa using h

/-- A line whose `candidate` is `none`, or is the `candidate` of a line of
the dictionary, does not change the set of the words written. -/
theorem mem_main_insert (argv1 : Str) (d1 d2 : List Str) (l : Str)
    (h : candidate argv1.length (get_bits (argv1.map tolower)) l = none ∨
      ∃ l2 ∈ d1 ++ d2, candidate argv1.length (get_bits (argv1.map tolower)) l2
        = candidate argv1.length (get_bits (argv1.map tolower)) l) (w : Str) :
    w ∈ (main argv1 (d1 ++ l :: d2)).1 ↔ w ∈ (main argv1 (d1 ++ d2)).1 := by
  rw [mem_main, mem_main]
  refine and_congr_left (fun _ => ?_)
  constructor
  · rintro ⟨line, hl, hc⟩
    rw [List.mem_append, List.mem_cons] at hl
    rcases hl with hl | rfl | hl
    · exact ⟨line, List.mem_append.2 (Or.inl hl), hc⟩
    · rcases h with h | ⟨l2, hl2, h2⟩
      · rw [h] at hc; cases hc
      · exact ⟨l2, hl2, h2.trans hc⟩
    · exact ⟨line, List.mem_append.2 (Or.inr hl), hc⟩
  · rintro ⟨line, hl, hc⟩
    refine ⟨line, ?_, hc⟩
    rw [List.mem_append] at hl
    rw [List.mem_append, List.mem_cons]
    tauto

/-- A count bound on the letters gives the inclusion of the signatures. -/
theorem get_bits_subset_of_count_le {w t : Str} (hw : ∀ c ∈ w, islower c = true)
    (ht : ∀ c ∈ t, islower c = true)
    (h : ∀ c, islower c = true → w.count c ≤ t.count c) :
    get_bits w &&& get_bits t = get_bits w := by
  apply Nat.eq_of_testBit_eq
  intro k
  rw [Nat.testBit_and, get_bits_testBit hw, get_bits_testBit ht]
  by_cases hk : k + 97 ∈ w
  · have h1 := h _ (hw _ hk)
    have h2 : 0 < w.count (k + 97) := List.count_pos_iff.2 hk
    have h3 : k + 97 ∈ t := List.count_pos_iff.1 (by omega)
    simp [hk, h3]
  · simp [hk]

/-- Completeness for the words shorter than the tokens: a line of the
dictionary that passes the first test, whose stripped word is a non-empty
alphabetic word shorter than the tokens and within their letter counts, is
written. -/
theorem mem_main_of_shorter (argv1 : Str) (dictionary : List Str) (line : Str)
    (ht : ∀ c ∈ argv1, isalpha c = true) (hl : line ∈ dictionary)
    (h1 : isupper (line.headD 0) = false) (h2 : isdigit (line.headD 0) = false)
    (h3 : strip_extra line ≠ []) (h4 : ∀ c ∈ strip_extra line, isalpha c = true)
    (h5 : ∀ c, islower c = true →
      ((strip_extra line).map tolower).count c ≤ (argv1.map tolower).count c)
    (h6 : (strip_extra line).length < argv1.length) :
    (strip_extra line).map tolower ∈ (main argv1 dictionary).1 := by
  have hw : ∀ c ∈ (strip_extra line).map tolower, islower c = true := by
    intro c hc
    obtain ⟨e, he, rfl⟩ := List.mem_map.1 hc
    rw [islower_tolower]; exact h4 e he
  have hT : ∀ c ∈ argv1.map tolower, islower c = true := by
    intro c hc
    obtain ⟨e, he, rfl⟩ := List.mem_map.1 hc
    rw [islower_tolower]; exact ht e he
  rw [mem_main]
  refine ⟨⟨line, hl, ?_⟩, by simpa using h6, ?_⟩
  · rw [candidate_eq_some_iff]
    exact ⟨h1, h2, Nat.le_of_lt h6, rfl, (get_bits_ne_zero_iff _).2 ⟨h3, h4⟩,
      get_bits_subset_of_count_le hw hT h5⟩
  · rw [counts_match_get_counts]
    intro j hj
    by_cases hj2 : j < 26
    · exact h5 _ (by rw [islower_iff]; omega)
    · have : (j + 97) ∉ (strip_extra line).map tolower := by
        intro hm
        have := hw _ hm
        rw [islower_iff] at this
        omega
      rw [List.count_eq_zero_of_not_mem this]
      exact Nat.zero_le _

theorem get_bits_eq_zero_iff (s : Str) :
    get_bits (s.map tolower) = 0 ↔ s = [] ∨ ∃ c ∈ s, isalpha c = false := by
  have h := get_bits_ne_zero_iff s
  constructor
  · intro h0
    by_contra hcon
    push_neg at hcon
    exact (h.2 ⟨hcon.1, fun c hc => by simpa using hcon.2 c hc⟩) h0
  · intro h1
    by_contra hcon
    obtain ⟨hne, hall⟩ := h.1 hcon
    rcases h1 with h1 | ⟨c, hc, hc2⟩
    · exact hne h1
    · rw [hall c hc] at hc2
      cases hc2

theorem candidate_of_bits_zero {line : Str} (h : get_bits ((strip_extra line).map tolower) = 0)
    (n b : Nat) : candidate n b line = none := by
  cases hc : candidate n b line with
  | none => rfl
  | some w =>
    rw [candidate_eq_some_iff] at hc
    obtain ⟨-, -, -, rfl, h5, -⟩ := hc
    exact absurd h h5

theorem candidate_of_too_long {line : Str} {n : Nat} (h : (strip_extra line).length > n)
    (b : Nat) : candidate n b line = none := by
  cases hc : candidate n b line with
  | none => rfl
  | some w =>
    rw [candidate_eq_some_iff] at hc
    omega

theorem read_line_of_none {n b : Nat} {line : Str} (h : candidate n b line = none)
    (words : Nat → List Str) : read_line n b words line = words := by
  unfold read_line
  rw [h]

/-- A line that the reading loop skips leaves the index as it is, wherever it
stands in the dictionary. -/
theorem build_index_skip {n b : Nat} {line : Str} (h : candidate n b line = none)
    (d1 d2 : List Str) : build_index n b (d1 ++ line :: d2) = build_index n b (d1 ++ d2) := by
  unfold build_index
  simp only [List.foldl_append, List.foldl_cons]
  rw [read_line_of_none h]

theorem mem_main_words (argv1 : Str) (dictionary : List Str) (L : Nat) (w : Str) :
    w ∈ main_words argv1 dictionary L ↔
      ∃ line ∈ dictionary,
        candidate argv1.length (get_bits (argv1.map tolower)) line = some w ∧ w.length = L := by
  unfold main_words
  simp only [mem_build_index, List.length_map]

/-- The output of `main`, bucket by bucket. -/
theorem main_eq (argv1 : Str) (dictionary : List Str) :
    (main argv1 dictionary).1 =
      (List.range argv1.length).flatMap (fun i => (main_words argv1 dictionary i).filter
        (fun w => counts_match (get_counts w) (get_counts (argv1.map tolower)))) := by
  unfold main
  simp only [print_words_eq, List.length_map]

/-! ## The variant without the signature test -/

theorem candidate_variant_eq_some_iff (n : Nat) (line w : Str) :
    candidate_variant n line = some w ↔
      isupper (line.headD 0) = false ∧ isdigit (line.headD 0) = false ∧
      (strip_extra line).length ≤ n ∧ w = (strip_extra line).map tolower ∧ get_bits w ≠ 0 := by
  unfold candidate_variant
  by_cases h1 : (isupper (line.headD 0) || isdigit (line.headD 0)) = true
  · rw [if_pos h1]
    simp only [Bool.or_eq_true] at h1
    constructor
    · intro h; cases h
    · rintro ⟨a, c, -⟩
      rcases h1 with h1 | h1
      · rw [a] at h1; cases h1
      · rw [c] at h1; cases h1
  · rw [if_neg h1]
    simp only [Bool.or_eq_true, not_or, Bool.not_eq_true] at h1
    by_cases h2 : (strip_extra line).length > n
    · simp only [h2, if_true]
      constructor
      · intro h; cases h
      · rintro ⟨-, -, c, -⟩; omega
    · simp only [h2, if_false]
      by_cases h3 : (get_bits ((strip_extra line).map tolower) == 0) = true
      · rw [if_pos h3]
        constructor
        · intro h; cases h
        · rintro ⟨-, -, -, rfl, c⟩
          exact absurd (by simpa using h3) c
      · rw [if_neg h3]
        constructor
        · intro h
          cases h
          exact ⟨h1.1, h1.2, by omega, rfl, by simpa using h3⟩
        · rintro ⟨-, -, -, rfl, -⟩
          rfl

theorem mem_read_line_variant (n : Nat) (words : Nat → List Str) (line w : Str) (k : Nat) :
    w ∈ read_line_variant n words line k ↔
      w ∈ words k ∨ (candidate_variant n line = some w ∧ w.length = k) := by
  unfold read_line_variant
  cases hc : candidate_variant n line with
  | none => simp
  | some s =>
    simp only [bucket_insert, Option.some.injEq]
    split_ifs with hk
    · rw [mem_hash_set_insert]
      constructor
      · rintro (h | rfl)
        · exact Or.inl h
        · exact Or.inr ⟨rfl, hk.symm⟩
      · rintro (h | ⟨rfl, -⟩)
        · exact Or.inl h
        · exact Or.inr rfl
    · constructor
      · exact Or.inl
      · rintro (h | ⟨rfl, h2⟩)
        · exact h
        · exact absurd h2.symm hk

theorem nodup_read_line_variant (n : Nat) {words : Nat → List Str} (h : ∀ k, (words k).Nodup)
    (line : Str) (k : Nat) : (read_line_variant n words line k).Nodup := by
  unfold read_line_variant
  cases candidate_variant n line with
  | none => exact h k
  | some s =>
    simp only [bucket_insert]
    split_ifs
    · exact nodup_hash_set_insert (h k) s
    · exact h k

theorem mem_foldl_read_line_variant (n : Nat) (dictionary : List Str) (words : Nat → List Str)
    (w : Str) (k : Nat) :
    w ∈ dictionary.foldl (read_line_variant n) words k ↔
      w ∈ words k ∨ ∃ line ∈ dictionary, candidate_variant n line = some w ∧ w.length = k := by
  induction dictionary generalizing words with
  | nil => simp
  | cons l ls ih =>
    rw [List.foldl_cons, ih, mem_read_line_variant]
    simp only [List.mem_cons, exists_eq_or_imp]
    tauto

theorem nodup_foldl_read_line_variant (n : Nat) (dictionary : List Str)
    {words : Nat → List Str} (h : ∀ k, (words k).Nodup) (k : Nat) :
    (dictionary.foldl (read_line_variant n) words k).Nodup := by
  induction dictionary generalizing words with
  | nil => exact h k
  | cons l ls ih => exact ih (nodup_read_line_variant n h l)

theorem mem_main_variant (argv1 : Str) (dictionary : List Str) (w : Str) :
    w ∈ (main_variant argv1 dictionary).1 ↔
      (∃ line ∈ dictionary, candidate_variant argv1.length line = some w) ∧
      w.length < argv1.length ∧
      counts_match (get_counts w) (get_counts (argv1.map tolower)) = true := by
  unfold main_variant build_index_variant
  simp only [mem_print_words, mem_foldl_read_line_variant, List.length_map, List.not_mem_nil,
    false_or]
  constructor
  · rintro ⟨i, hi, ⟨line, hl, hc, rfl⟩, hm⟩
    exact ⟨⟨line, hl, hc⟩, hi, hm⟩
  · rintro ⟨⟨line, hl, hc⟩, hi, hm⟩
    exact ⟨w.length, hi, ⟨line, hl, hc, rfl⟩, hm⟩

theorem nodup_main_variant (argv1 : Str) (dictionary : List Str) :
    (main_variant argv1 dictionary).1.Nodup := by
  unfold main_variant build_index_variant
  simp only [print_words_eq]
  rw [List.nodup_flatMap]
  refine ⟨fun i _ => List.Nodup.filter _
    (nodup_foldl_read_line_variant _ _ (fun _ => List.nodup_nil) i), ?_⟩
  refine List.Pairwise.imp_of_mem ?_ (List.nodup_range _)
  intro i j _ _ hij
  intro w hwi hwj
  rw [List.mem_filter, mem_foldl_read_line_variant] at hwi hwj
  simp only [List.not_mem_nil, false_or] at hwi hwj
  obtain ⟨⟨_, _, _, e1⟩, _⟩ := hwi
  obtain ⟨⟨_, _, _, e2⟩, _⟩ := hwj
  exact hij (e1.symm.trans e2)

/-- A string with a non-zero signature that is the lowercasing of a string
holds lowercase letters only. -/
theorem islower_of_get_bits_ne_zero {s : Str} (h : get_bits (s.map tolower) ≠ 0) :
    ∀ c ∈ s.map tolower, islower c = true := by
  intro c hc
  obtain ⟨e, he, rfl⟩ := List.mem_map.1 hc
  rw [islower_tolower]
  exact ((get_bits_ne_zero_iff s).1 h).2 e he

theorem islower_tokens {argv1 : Str} (h : ∀ c ∈ argv1, isalpha c = true) :
    ∀ c ∈ argv1.map tolower, islower c = true := by
  intro c hc
  obtain ⟨e, he, rfl⟩ := List.mem_map.1 hc
  rw [islower_tolower]
  exact h e he

theorem count_le_of_counts_match {w t : Str}
    (h : counts_match (get_counts w) (get_counts t) = true) (c : Nat)
    (hc : islower c = true) : w.count c ≤ t.count c := by
  rw [counts_match_get_counts] at h
  rw [islower_iff] at hc
  have := h (c - 97) (by omega)
  have e : c - 97 + 97 = c := by omega
  rwa [e] at this

/-- With a token signature 0 the reading loop stores nothing. -/
theorem candidate_of_zero_bits_to_match (n : Nat) (line : Str) : candidate n 0 line = none := by
  cases hc : candidate n 0 line with
  | none => rfl
  | some w =>
    rw [candidate_eq_some_iff] at hc
    obtain ⟨-, -, -, -, h5, h6⟩ := hc
    rw [Nat.and_zero] at h6
    exact absurd h6.symm h5

theorem length_le_of_count_le {t t2 : Str} (ht : ∀ c ∈ t, islower c = true)
    (h : ∀ c, islower c = true → t.count c ≤ t2.count c) : t.length ≤ t2.length :=
  (List.subperm_ext_iff.2 (fun x hx => h x (ht x hx))).length_le

/-- The words written grow with the letter counts of the tokens. -/
theorem main_mono {t t2 : Str} (ht : ∀ c ∈ t, isalpha c = true)
    (ht2 : ∀ c ∈ t2, isalpha c = true)
    (h : ∀ c, islower c = true → (t.map tolower).count c ≤ (t2.map tolower).count c)
    (dictionary : List Str) (w : Str) (hw : w ∈ (main t dictionary).1) :
    w ∈ (main t2 dictionary).1 := by
  have hlen : t.length ≤ t2.length := by
    simpa using length_le_of_count_le (islower_tokens ht) h
  rw [mem_main] at hw ⊢
  obtain ⟨⟨line, hl, hc⟩, h2, h3⟩ := hw
  rw [candidate_eq_some_iff] at hc
  obtain ⟨a1, a2, a3, a4, a5, -⟩ := hc
  have hwl : ∀ c ∈ w, islower c = true := by
    subst a4
    exact islower_of_get_bits_ne_zero a5
  have hcnt : ∀ c, islower c = true → w.count c ≤ (t2.map tolower).count c := fun c hc =>
    Nat.le_trans (count_le_of_counts_match h3 c hc) (h c hc)
  refine ⟨⟨line, hl, ?_⟩, by omega, ?_⟩
  · rw [candidate_eq_some_iff]
    exact ⟨a1, a2, by omega, a4, a5, get_bits_subset_of_count_le hwl (islower_tokens ht2) hcnt⟩
  · rw [counts_match_get_counts]
    intro j hj
    by_cases hj2 : j < 26
    · exact hcnt _ (by rw [islower_iff]; omega)
    · have : (j + 97) ∉ w := by
        intro hm
        have := hwl _ hm
        rw [islower_iff] at this
        omega
      rw [List.count_eq_zero_of_not_mem this]
      exact Nat.zero_le _

/-! ## The runs inside the array bounds -/

theorem foldl_option_none {α β : Type} (F : Option α → β → Option α)
    (hn : ∀ x, F none x = none) (l : List β) : l.foldl F none = none := by
  induction l with
  | nil => rfl
  | cons x xs ih => rw [List.foldl_cons, hn, ih]

/-- A checked loop that ends with a result ends with the result of the
unchecked loop. -/
theorem foldl_option_eq {α β : Type} (F : Option α → β → Option α) (g : α → β → α)
    (hn : ∀ x, F none x = none) (hs : ∀ a x r, F (some a) x = some r → r = g a x)
    (l : List β) (init r : α) (h : l.foldl F (some init) = some r) : r = l.foldl g init := by
  induction l generalizing init with
  | nil => simpa using h.symm
  | cons x xs ih =>
    rw [List.foldl_cons] at h
    cases hx : F (some init) x with
    | none =>
      rw [hx, foldl_option_none F hn] at h
      cases h
    | some a =>
      rw [hx] at h
      rw [List.foldl_cons, ← hs init x a hx]
      exact ih a h

/-- A checked loop all of whose rounds stay inside the bounds ends with the
result of the unchecked loop. -/
theorem foldl_option_some {α β : Type} (F : Option α → β → Option α) (g : α → β → α)
    (I : α → Prop) (l : List β) (hI : ∀ a, I a → ∀ x ∈ l, I (g a x))
    (hs : ∀ a, I a → ∀ x ∈ l, F (some a) x = some (g a x)) (init : α) (h0 : I init) :
    l.foldl F (some init) = some (l.foldl g init) := by
  induction l generalizing init with
  | nil => rfl
  | cons x xs ih =>
    rw [List.foldl_cons, List.foldl_cons, hs init h0 x (List.mem_cons_self _ _)]
    exact ih (fun a ha y hy => hI a ha y (List.mem_cons_of_mem _ hy))
      (fun a ha y hy => hs a ha y (List.mem_cons_of_mem _ hy)) _
      (hI init h0 x (List.mem_cons_self _ _))

theorem incr_checked_eq {counts r : List Nat} {c : Nat}
    (h : incr_checked counts (char_index c) = some r) : r = incr counts ((c : Int) - 97) := by
  unfold incr_checked at h
  split_ifs at h with h1
  cases h
  have e : char_index c = (c : Int) - 97 := by
    unfold char_index at h1 ⊢
    split_ifs at h1 ⊢ with h2
    · omega
    · rfl
  rw [e] at h1 ⊢
  unfold incr
  rw [if_pos h1]

theorem incr_checked_of_islower {counts : List Nat} (hl : counts.length = 32) {c : Nat}
    (hc : islower c = true) :
    incr_checked counts (char_index c) = some (incr counts ((c : Int) - 97)) := by
  rw [islower_iff] at hc
  have e : char_index c = (c : Int) - 97 := by
    unfold char_index
    rw [if_neg (by omega)]
  have h1 : 0 ≤ (c : Int) - 97 ∧ (c : Int) - 97 < counts.length := by omega
  unfold incr_checked incr
  rw [e, if_pos h1, if_pos h1]

theorem get_counts_checked_eq {s : Str} {r : List Nat} (h : get_counts_checked s = some r) :
    r = get_counts s := by
  unfold get_counts_checked at h
  unfold get_counts
  exact foldl_option_eq _ _ (fun _ => rfl) (fun a x r hr => incr_checked_eq hr) s _ r h

theorem get_counts_checked_of_islower {s : Str} (hs : ∀ c ∈ s, islower c = true) :
    get_counts_checked s = some (get_counts s) := by
  unfold get_counts_checked get_counts
  exact foldl_option_some _ _ (fun cs => cs.length = 32) s
    (fun a ha x _ => (incr_length a _).trans ha)
    (fun a ha x hx => incr_checked_of_islower ha (hs x hx)) _ (by simp [ALPHABET_LENGTH])

theorem read_line_checked_eq {n b size : Nat} {words r : Nat → List Str} {line : Str}
    (h : read_line_checked n b size words line = some r) : r = read_line n b words line := by
  unfold read_line_checked at h
  unfold read_line
  cases hc : candidate n b line with
  | none =>
    rw [hc] at h
    simpa using h.symm
  | some w =>
    rw [hc] at h
    simp only [bucket_insert_checked] at h
    split_ifs at h
    simpa using h.symm

theorem build_index_checked_eq {n b size : Nat} {dictionary : List Str} {r : Nat → List Str}
    (h : build_index_checked n b size dictionary = some r) :
    r = build_index n b dictionary := by
  unfold build_index_checked at h
  unfold build_index
  exact foldl_option_eq _ _ (fun _ => rfl) (fun a x r hr => read_line_checked_eq hr)
    dictionary _ r h

theorem build_index_checked_of_shorter {n b size : Nat} {dictionary : List Str}
    (h : ∀ line ∈ dictionary, ∀ w, candidate n b line = some w → w.length < size) :
    build_index_checked n b size dictionary = some (build_index n b dictionary) := by
  unfold build_index_checked build_index
  refine foldl_option_some _ _ (fun _ => True) dictionary (fun _ _ _ _ => trivial) ?_ _ trivial
  intro a _ line hl
  show read_line_checked n b size a line = some (read_line n b a line)
  unfold read_line_checked read_line
  cases hc : candidate n b line with
  | none => rfl
  | some w =>
    simp only [bucket_insert_checked]
    rw [if_pos (h line hl w hc)]

/-- A line stored at the index `size` or above ends the checked reading loop
with `none`. -/
theorem build_index_checked_of_out_of_bounds {n b size : Nat} {dictionary : List Str}
    {line w : Str} (hl : line ∈ dictionary) (hc : candidate n b line = some w)
    (hw : size ≤ w.length) : build_index_checked n b size dictionary = none := by
  cases h : build_index_checked n b size dictionary with
  | none => rfl
  | some r =>
    exfalso
    unfold build_index_checked at h
    obtain ⟨d1, d2, rfl⟩ := List.append_of_mem hl
    rw [List.foldl_append, List.foldl_cons] at h
    cases h1 : List.foldl
        (fun (words : Option (Nat → List Str)) (line : Str) =>
          words.bind (fun ws => read_line_checked n b size ws line))
        (some (fun _ => [])) d1 with
    | none =>
      rw [h1] at h
      simp only [Option.bind] at h
      rw [foldl_option_none _ (fun _ => rfl)] at h
      cases h
    | some ws =>
      rw [h1] at h
      have e : (some ws).bind (fun ws => read_line_checked n b size ws line) = none := by
        simp only [Option.bind, read_line_checked, hc, bucket_insert_checked]
        rw [if_neg (by omega)]
      rw [e, foldl_option_none _ (fun _ => rfl)] at h
      cases h

theorem print_word_checked_eq (tc : List Nat) (a : List Str × Nat) (w : Str)
    (r : List Str × Nat) (h : print_word_checked tc (some a) w = some r) :
    r = if counts_match (get_counts w) tc then (a.1 ++ [w], a.2 + 1) else a := by
  unfold print_word_checked at h
  cases hg : get_counts_checked w with
  | none =>
    rw [hg] at h
    cases h
  | some wc =>
    rw [hg] at h
    rw [← get_counts_checked_eq hg]
    simpa using h.symm

theorem print_words_checked_eq {tokens : Str} {words : Nat → List Str} {r : List Str × Nat}
    (h : print_words_checked tokens words = some r) : r = print_words tokens words := by
  unfold print_words_checked at h
  cases hg : get_counts_checked tokens with
  | none =>
    rw [hg] at h
    cases h
  | some tc =>
    rw [hg] at h
    have e := get_counts_checked_eq hg
    subst e
    unfold print_words
    refine foldl_option_eq _ _ ?_ ?_ (List.range tokens.length) _ r h
    · intro i
      exact foldl_option_none _ (fun _ => rfl) _
    · intro a i r hr
      exact foldl_option_eq _ _ (fun _ => rfl) (print_word_checked_eq _) (words i) a r hr

theorem print_words_checked_of_islower {tokens : Str} {words : Nat → List Str}
    (ht : ∀ c ∈ tokens, islower c = true)
    (hw : ∀ i, i < tokens.length → ∀ w ∈ words i, ∀ c ∈ w, islower c = true) :
    print_words_checked tokens words = some (print_words tokens words) := by
  unfold print_words_checked print_words
  rw [get_counts_checked_of_islower ht]
  refine foldl_option_some _ _ (fun _ => True) (List.range tokens.length)
    (fun _ _ _ _ => trivial) ?_ _ trivial
  intro a _ i hi
  refine foldl_option_some _ _ (fun _ => True) (words i) (fun _ _ _ _ => trivial) ?_ _ trivial
  intro o _ w hwi
  show print_word_checked (get_counts tokens) (some o) w = _
  unfold print_word_checked
  rw [get_counts_checked_of_islower (hw i (List.mem_range.1 hi) w hwi)]
  rfl

/-- A run of the program that stays inside its arrays writes what `main`
gives. -/
theorem main_checked_eq {argv1 : Str} {dictionary : List Str} {r : List Str × Nat}
    (h : main_checked argv1 dictionary = some r) : r = main argv1 dictionary := by
  unfold main_checked at h
  simp only at h
  cases hb : build_index_checked (argv1.map tolower).length (get_bits (argv1.map tolower))
      (argv1.map tolower).length dictionary with
  | none =>
    rw [hb] at h
    cases h
  | some ws =>
    rw [hb] at h
    have e := build_index_checked_eq hb
    subst e
    exact print_words_checked_eq h

/-- The program stays inside its arrays, and writes what `main` gives, when the
tokens are letters and no line of the dictionary is stored with the length of
the tokens. -/
theorem main_checked_of_in_bounds {argv1 : Str} {dictionary : List Str}
    (ht : ∀ c ∈ argv1, isalpha c = true)
    (hd : ∀ line ∈ dictionary, ∀ w,
      candidate argv1.length (get_bits (argv1.map tolower)) line = some w →
      w.length < argv1.length) :
    main_checked argv1 dictionary = some (main argv1 dictionary) := by
  unfold main_checked main main_words
  simp only [List.length_map]
  rw [build_index_checked_of_shorter hd]
  simp only [Option.bind]
  apply print_words_checked_of_islower (islower_tokens ht)
  intro i _ w hw c hc
  rw [mem_build_index] at hw
  obtain ⟨line, -, hcand, -⟩ := hw
  rw [candidate_eq_some_iff] at hcand
  obtain ⟨-, -, -, rfl, h5, -⟩ := hcand
  exact islower_of_get_bits_ne_zero h5 c hc

/-- A line stored with the length of the tokens takes the program outside
the array `words`. -/
theorem main_checked_of_full_length {argv1 : Str} {dictionary : List Str} {line w : Str}
    (hl : line ∈ dictionary)
    (hc : candidate argv1.length (get_bits (argv1.map tolower)) line = some w)
    (hw : w.length = argv1.length) : main_checked argv1 dictionary = none := by
  unfold main_checked
  simp only [List.length_map]
  rw [build_index_checked_of_out_of_bounds hl hc (Nat.le_of_eq hw.symm)]
  rfl

/-! ## The claims -/

set_option maxRecDepth 100000

/-- C1 (completeness of the match) fails on the code for a word as long as
the tokens.  With the tokens `cats` and the single dictionary line `cats`:
the line passes every test of the reading loop and its histogram fits the
histogram of the tokens, the insertion of line 141 goes to `words[4]`, which
is one past the four allocated buckets `words[0..3]` that `print_words`
walks, and the program writes no word and the total 0. -/
theorem C1_full_length_word_not_emitted :
    candidate 4 (get_bits (str "cats")) (str "cats") = some (str "cats") ∧
    (∀ j, j < 32 → (str "cats").count (j + 97) ≤ ((str "cats").map tolower).count (j + 97)) ∧
    main_words (str "cats") [str "cats"] 4 = [str "cats"] ∧
    ¬ (4 < (str "cats").length) ∧
    str "cats" ∉ (main (str "cats") [str "cats"]).1 ∧
    main (str "cats") [str "cats"] = ([], 0) := by
  refine ⟨by decide, fun j _ => le_refl _, by decide, by decide, by decide, by decide⟩

/-- C2 (subset law): for tokens made of letters and any dictionary, every word
written by the program has, for every letter `c` of `a`..`z`, at most as many
occurrences of `c` as the lowercased tokens. -/
theorem C2_subset_law (argv1 : Str) (dictionary : List Str)
    (_ht : ∀ c ∈ argv1, isalpha c = true) (w : Str) (hw : w ∈ (main argv1 dictionary).1)
    (c : Nat) (hc : islower c = true) :
    w.count c ≤ (argv1.map tolower).count c := by
  rw [mem_main] at hw
  obtain ⟨-, -, hm⟩ := hw
  rw [counts_match_get_counts] at hm
  rw [islower_iff] at hc
  have := hm (c - 97) (by omega)
  have e : c - 97 + 97 = c := by omega
  rwa [e] at this

theorem C2_subset_law_witness :
    (∀ c ∈ str "Cats", isalpha c = true) ∧
    str "cat" ∈ (main (str "Cats") [str "cat", str "dog"]).1 ∧ islower 97 = true ∧
    (str "cat").count 97 ≤ ((str "Cats").map tolower).count 97 :=
  ⟨by decide, by decide, by decide,
    C2_subset_law (str "Cats") [str "cat", str "dog"] (by decide) (str "cat") (by decide) 97
      (by decide)⟩

/-- C3 (end-to-end example) fails on the code.  With the tokens `cats` and the
dictionary `cat`, `cats`, `act`, `Cats`, `dog`, `ca's` the program writes
exactly the words `cat`, `act` and `ca` and the total 3: the word `cats` is
inserted in `words[4]`, outside the buckets `words[0..3]` that `print_words`
walks, and is not written. -/
theorem C3_end_to_end_example :
    (∀ w, w ∈ (main (str "cats") example_dictionary).1 ↔
      (w = str "cat" ∨ w = str "act" ∨ w = str "ca")) ∧
    (main (str "cats") example_dictionary).2 = 3 ∧
    str "cats" ∉ (main (str "cats") example_dictionary).1 ∧
    main_words (str "cats") example_dictionary 4 = [str "cats"] := by
  have h : main (str "cats") example_dictionary = ([str "ca", str "cat", str "act"], 3) := by
    decide
  refine ⟨fun w => ?_, by rw [h], by rw [h]; decide, by decide⟩
  rw [h]
  simp only [List.mem_cons, List.mem_nil_iff, or_false]
  tauto

/-- C4 as stated fails: the line `cat/verb's` (the word `cat`, a slash, and an
annotation that holds an apostrophe) is cut at the apostrophe, not at the
slash; the string `cat/verb` that is left is not alphabetic, so with the
tokens `cats` the line is skipped, while the plain line `cat` is written. -/
theorem C4_counterexample :
    str "cat/verb's" = str "cat" ++ 47 :: str "verb's" ∧
    strip_extra (str "cat/verb's") = str "cat/verb" ∧
    main (str "cats") [str "cat/verb's"] = ([], 0) ∧
    main (str "cats") [str "cat"] = ([str "cat"], 1) := by
  refine ⟨by decide, by decide, by decide, by decide⟩

/-- C4 (annotation stripping), amended: for every token string, every word `w`
of lowercase letters and every annotation `x`, the line `w`, apostrophe, `x`
is cut to `w` and is treated as the plain line `w` at any place of any
dictionary (same index, same output); the line `w`, slash, `x` is cut to `w`
and treated as the plain line `w` when `x` holds no apostrophe. -/
theorem C4_annotation_stripping (argv1 w x : Str) (hw : ∀ c ∈ w, islower c = true)
    (pre post : List Str) :
    (strip_extra (w ++ 39 :: x) = w ∧
      main_words argv1 (pre ++ (w ++ 39 :: x) :: post) = main_words argv1 (pre ++ w :: post) ∧
      main argv1 (pre ++ (w ++ 39 :: x) :: post) = main argv1 (pre ++ w :: post)) ∧
    (39 ∉ x →
      strip_extra (w ++ 47 :: x) = w ∧
      main_words argv1 (pre ++ (w ++ 47 :: x) :: post) = main_words argv1 (pre ++ w :: post) ∧
      main argv1 (pre ++ (w ++ 47 :: x) :: post) = main argv1 (pre ++ w :: post)) := by
  have h39 : (39 : Nat) ∉ w := not_mem_of_islower hw (by decide)
  have h47 : (47 : Nat) ∉ w := not_mem_of_islower hw (by decide)
  have hp := strip_extra_plain h39 h47
  constructor
  · have hs := strip_extra_apostrophe h39 x
    have hh := headD_append_cons w 39 x hw (by decide) (by decide)
    have hc : ∀ n b, candidate n b (w ++ 39 :: x) = candidate n b w := fun n b =>
      candidate_congr (hh.1.trans hh.2.symm) (hs.trans hp.symm)
    refine ⟨hs, ?_, main_congr (hc _ _) pre post⟩
    unfold main_words
    exact build_index_congr (hc _ _) pre post
  · intro hx
    have hs := strip_extra_slash h39 h47 hx
    have hh := headD_append_cons w 47 x hw (by decide) (by decide)
    have hc : ∀ n b, candidate n b (w ++ 47 :: x) = candidate n b w := fun n b =>
      candidate_congr (hh.1.trans hh.2.symm) (hs.trans hp.symm)
    refine ⟨hs, ?_, main_congr (hc _ _) pre post⟩
    unfold main_words
    exact build_index_congr (hc _ _) pre post

theorem C4_annotation_stripping_witness :
    (∀ c ∈ str "cat", islower c = true) ∧ 39 ∉ str "verb" ∧
    str "cat" ++ 39 :: str "s" = str "cat's" ∧ str "cat" ++ 47 :: str "verb" = str "cat/verb" ∧
    main (str "cats") ([] ++ (str "cat" ++ 39 :: str "s") :: []) = main (str "cats") ([] ++ str "cat" :: []) ∧
    main (str "cats") ([] ++ (str "cat" ++ 47 :: str "verb") :: [])
      = main (str "cats") ([] ++ str "cat" :: []) :=
  ⟨by decide, by decide, by decide, by decide,
    (C4_annotation_stripping (str "cats") (str "cat") (str "s") (by decide) [] []).1.2.2,
    ((C4_annotation_stripping (str "cats") (str "cat") (str "verb") (by decide) [] []).2
      (by decide)).2.2⟩

/-- C7 (case insensitivity of the tokens): for every alphabetic token string
`t` and every dictionary, the output of the program (words and total) for `t`
is its output for the lowercased `t`. -/
theorem C7_case_insensitive_tokens (argv1 : Str) (dictionary : List Str)
    (_ht : ∀ c ∈ argv1, isalpha c = true) :
    main argv1 dictionary = main (argv1.map tolower) dictionary := by
  unfold main main_words
  simp only [map_tolower_idem]

theorem C7_case_insensitive_tokens_witness :
    (∀ c ∈ str "CAT", isalpha c = true) ∧ (str "CAT").map tolower = str "cat" ∧
    main (str "CAT") example_dictionary = main ((str "CAT").map tolower) example_dictionary :=
  ⟨by decide, by decide, C7_case_insensitive_tokens (str "CAT") example_dictionary (by decide)⟩

/-- C8 (dedup): for every token string and every dictionary, no word is
written twice; and putting in a dictionary, at any place, a line that is
already in it, or a line whose normalized word is already the word stored for
one of its lines, changes neither the set of the words written nor the total. -/
theorem C8_dedup (argv1 : Str) (d1 d2 : List Str) (l : Str) :
    (main argv1 (d1 ++ d2)).1.Nodup ∧
    ((l ∈ d1 ++ d2 ∨
      ∃ l2 ∈ d1 ++ d2, candidate (argv1.map tolower).length (get_bits (argv1.map tolower)) l2
        = some ((strip_extra l).map tolower)) →
      (∀ w, w ∈ (main argv1 (d1 ++ l :: d2)).1 ↔ w ∈ (main argv1 (d1 ++ d2)).1) ∧
      (main argv1 (d1 ++ l :: d2)).2 = (main argv1 (d1 ++ d2)).2) := by
  constructor
  · exact nodup_main argv1 (d1 ++ d2)
  · intro h
    have hH : candidate argv1.length (get_bits (argv1.map tolower)) l = none ∨
        ∃ l2 ∈ d1 ++ d2, candidate argv1.length (get_bits (argv1.map tolower)) l2
          = candidate argv1.length (get_bits (argv1.map tolower)) l := by
      rcases h with h | ⟨l2, hl2, h2⟩
      · exact Or.inr ⟨l, h, rfl⟩
      · rw [List.length_map] at h2
        cases hc : candidate argv1.length (get_bits (argv1.map tolower)) l with
        | none => exact Or.inl rfl
        | some v =>
          right
          refine ⟨l2, hl2, ?_⟩
          rw [h2]
          rw [candidate_eq_some_iff] at hc
          rw [hc.2.2.2.1]
    have hm := mem_main_insert argv1 d1 d2 l hH
    exact ⟨hm, main_total_congr hm⟩

theorem C8_dedup_witness :
    str "cat" ∈ [str "cat"] ++ [str "act"] ∧
    (main (str "cats") ([str "cat"] ++ str "cat" :: [str "act"])).2
      = (main (str "cats") ([str "cat"] ++ [str "act"])).2 ∧
    (main (str "cats") ([str "cat"] ++ [str "act"])).2 = 2 :=
  ⟨by decide,
    ((C8_dedup (str "cats") [str "cat"] [str "act"] (str "cat")).2 (Or.inl (by decide))).2,
    by decide⟩

/-- C9 (signature and histogram agree): for every string `s` of the letters
`a`..`z` and every letter index `c` below 26, bit `c` of `get_bits s` is set
exactly when slot `c` of `get_counts s` is positive; the bits 26 and up of
`get_bits s` are not set. -/
theorem C9_signature_histogram (s : Str) (hs : ∀ c ∈ s, islower c = true) :
    (∀ c, c < 26 → ((get_bits s).testBit c = true ↔ (get_counts s).getD c 0 > 0)) ∧
    (∀ c, 26 ≤ c → (get_bits s).testBit c = false) := by
  constructor
  · intro c hc
    rw [get_bits_testBit hs, get_counts_getD s c (by omega), decide_eq_true_eq]
    exact List.count_pos_iff.symm
  · intro c hc
    rw [get_bits_testBit hs, decide_eq_false_iff_not]
    intro hm
    have := hs _ hm
    rw [islower_iff] at this
    omega

theorem C9_signature_histogram_witness :
    (∀ c ∈ str "cats", islower c = true) ∧
    ((get_bits (str "cats")).testBit 2 = true ↔ (get_counts (str "cats")).getD 2 0 > 0) ∧
    (get_bits (str "cats")).testBit 2 = true ∧ (get_bits (str "cats")).testBit 26 = false :=
  ⟨by decide, (C9_signature_histogram (str "cats") (by decide)).1 2 (by decide), by decide,
    by decide⟩

/-- C11 (a zero signature means ineligible): for a lowercased string `s`,
`get_bits s` is 0 exactly when `s` is empty or holds a character that is not
alphabetic; a line whose lowercased stripped string has the signature 0 is
skipped by the reading loop in the same way in both cases, and no stored word
has the signature 0. -/
theorem C11_zero_signature (t : Str) :
    (get_bits (t.map tolower) = 0 ↔
      t.map tolower = [] ∨ ∃ c ∈ t.map tolower, isalpha c = false) ∧
    (∀ n b line words, get_bits ((strip_extra line).map tolower) = 0 →
      candidate n b line = none ∧ read_line n b words line = words) ∧
    (∀ argv1 dictionary L w, w ∈ main_words argv1 dictionary L → get_bits w ≠ 0) := by
  refine ⟨?_, ?_, ?_⟩
  · rw [get_bits_eq_zero_iff]
    constructor
    · rintro (h | ⟨c, hc, hc2⟩)
      · left; rw [h]; rfl
      · right
        exact ⟨tolower c, List.mem_map_of_mem _ hc, by rw [isalpha_tolower]; exact hc2⟩
    · rintro (h | ⟨c, hc, hc2⟩)
      · left; exact List.map_eq_nil_iff.1 h
      · right
        obtain ⟨e, he, rfl⟩ := List.mem_map.1 hc
        exact ⟨e, he, by rw [isalpha_tolower] at hc2; exact hc2⟩
  · intro n b line words h
    exact ⟨candidate_of_bits_zero h n b, read_line_of_none (candidate_of_bits_zero h n b) words⟩
  · intro argv1 dictionary L w hw
    rw [mem_main_words] at hw
    obtain ⟨line, -, hc, -⟩ := hw
    rw [candidate_eq_some_iff] at hc
    exact hc.2.2.2.2.1

theorem C11_zero_signature_witness :
    get_bits ((strip_extra (str "ca-t")).map tolower) = 0 ∧
    get_bits ((strip_extra (str "'s")).map tolower) = 0 ∧
    candidate 4 (get_bits (str "cats")) (str "ca-t") = none ∧
    candidate 4 (get_bits (str "cats")) (str "'s") = none :=
  ⟨by decide, by decide,
    ((C11_zero_signature []).2.1 4 (get_bits (str "cats")) (str "ca-t") (fun _ => [])
      (by decide)).1,
    ((C11_zero_signature []).2.1 4 (get_bits (str "cats")) (str "'s") (fun _ => [])
      (by decide)).1⟩

/-- C12 (signature necessity, not sufficiency) fails on the code for the
input it names.  With the tokens `aabc` and the dictionary line `aaab`, the signature
of `aaab` is a subset of the signature of the tokens, the line passes every
test of the reading loop, and the histogram comparison would fail for it (3
`a` against 2).  But the word is as long as the tokens: line 141 stores it in
`words[4]`, one past the four hash sets allocated at line 112, so the run
leaves the array `words` before `print_words` compares a histogram. -/
theorem C12_example_stored_out_of_bounds :
    get_bits (str "aaab") &&& get_bits (str "aabc") = get_bits (str "aaab") ∧
    candidate ((str "aabc").map tolower).length (get_bits ((str "aabc").map tolower))
      (str "aaab") = some (str "aaab") ∧
    counts_match (get_counts (str "aaab")) (get_counts (str "aabc")) = false ∧
    (get_counts (str "aaab")).getD 0 0 = 3 ∧ (get_counts (str "aabc")).getD 0 0 = 2 ∧
    (str "aaab").length = 4 ∧ ((str "aabc").map tolower).length = 4 ∧
    bucket_insert_checked 4 (fun _ => []) (str "aaab").length (str "aaab") = none ∧
    main_checked (str "aabc") [str "aaab"] = none := by
  refine ⟨by decide, by decide, by decide, by decide, by decide, by decide, by decide, ?_,
    by decide⟩
  rfl

/-- C13 (malformed lines are skipped): for every token string and every
dictionary, putting in at any place a line that is empty, or begins with an
uppercase letter or a digit, or still holds a character that is not alphabetic
after the stripping, or is longer than the tokens after the stripping, leaves
the index and the output (words and total) as they are. -/
theorem C13_malformed_lines_excluded (argv1 : Str) (d1 d2 : List Str) (l : Str)
    (h : l = [] ∨ isupper (l.headD 0) = true ∨ isdigit (l.headD 0) = true ∨
      (∃ c ∈ strip_extra l, isalpha c = false) ∨ (strip_extra l).length > argv1.length) :
    main_words argv1 (d1 ++ l :: d2) = main_words argv1 (d1 ++ d2) ∧
    main argv1 (d1 ++ l :: d2) = main argv1 (d1 ++ d2) := by
  have hc : candidate (argv1.map tolower).length (get_bits (argv1.map tolower)) l = none := by
    rcases h with rfl | h | h | h | h
    · exact candidate_of_bits_zero (by decide) _ _
    · exact candidate_of_proper_noun (Or.inl h) _ _
    · exact candidate_of_proper_noun (Or.inr h) _ _
    · exact candidate_of_bits_zero ((get_bits_eq_zero_iff _).2 (Or.inr h)) _ _
    · exact candidate_of_too_long (by simpa using h) _
  have hw : main_words argv1 (d1 ++ l :: d2) = main_words argv1 (d1 ++ d2) := by
    unfold main_words
    exact build_index_skip hc d1 d2
  refine ⟨hw, ?_⟩
  unfold main
  rw [hw]

theorem C13_malformed_lines_excluded_witness :
    (∃ c ∈ strip_extra (str "c-t"), isalpha c = false) ∧
    main (str "cats") ([str "cat"] ++ str "c-t" :: [str "act"])
      = main (str "cats") ([str "cat"] ++ [str "act"]) ∧
    main (str "cats") ([str "cat"] ++ str "catsup" :: [str "act"])
      = main (str "cats") ([str "cat"] ++ [str "act"]) :=
  ⟨by decide,
    (C13_malformed_lines_excluded (str "cats") [str "cat"] [str "act"] (str "c-t")
      (Or.inr (Or.inr (Or.inr (Or.inl (by decide)))))).2,
    (C13_malformed_lines_excluded (str "cats") [str "cat"] [str "act"] (str "catsup")
      (Or.inr (Or.inr (Or.inr (Or.inr (by decide)))))).2⟩

/-- For the accesses inside the arrays: the words are written bucket by
bucket, from `words[0]` up, and every word of `words[i]` has length `i`; so
the lengths of the words written, in the order of the output, never
decrease. -/
theorem main_output_order (argv1 : Str) (dictionary : List Str) :
    (main argv1 dictionary).1 =
      (List.range argv1.length).flatMap (fun i => (main_words argv1 dictionary i).filter
        (fun w => counts_match (get_counts w) (get_counts (argv1.map tolower)))) ∧
    (∀ i w, w ∈ main_words argv1 dictionary i → w.length = i) ∧
    ((main argv1 dictionary).1.map List.length).Pairwise (· ≤ ·) := by
  have hlen : ∀ i w, w ∈ main_words argv1 dictionary i → w.length = i := by
    intro i w hw
    rw [mem_main_words] at hw
    obtain ⟨_, _, _, h⟩ := hw
    exact h
  refine ⟨main_eq argv1 dictionary, hlen, ?_⟩
  rw [List.pairwise_map, main_eq, List.pairwise_flatMap]
  constructor
  · intro i _
    apply List.Pairwise.filter
    rw [List.pairwise_iff_forall_sublist]
    intro a b hab
    have ha := hlen i a (hab.subset (List.mem_cons_self _ _))
    have hb := hlen i b (hab.subset (List.mem_cons_of_mem _ (List.mem_cons_self _ _)))
    omega
  · refine List.Pairwise.imp ?_ (List.pairwise_lt_range _)
    intro i j hij a ha b hb
    have h1 := hlen i a (List.mem_filter.1 ha).1
    have h2 := hlen j b (List.mem_filter.1 hb).1
    omega

/-- C14 (output order) fails on the code.  With the tokens `cats` and the
dictionary lines `cat`, `acts`, the line `acts` passes every test of the
reading loop and line 141 stores it in `words[4]`, one past the four hash sets
allocated at line 112: the run leaves the array `words`, and nothing is
promised about the order of what it writes.  (The order holds for the runs
that stay inside the arrays.) -/
theorem C14_output_order_out_of_bounds :
    candidate ((str "cats").map tolower).length (get_bits ((str "cats").map tolower))
      (str "acts") = some (str "acts") ∧
    (str "acts").length = 4 ∧ ((str "cats").map tolower).length = 4 ∧
    bucket_insert_checked 4 (fun _ => []) (str "acts").length (str "acts") = none ∧
    main_checked (str "cats") [str "cat", str "acts"] = none ∧
    main_checked (str "cats") [str "cat", str "act"] = some ([str "cat", str "act"], 2) := by
  refine ⟨by decide, by decide, by decide, ?_, by decide, by decide⟩
  rfl

/-- C15 (the signature test is only an optimization): for tokens made of
letters and every non-empty word `w` of lowercase letters, when the histogram
comparison of `print_words` passes for `w`, the signature test of `main`
passes for `w`; hence, for every dictionary, the program writes the same set
of words and the same total as the variant without the signature test. -/
theorem C15_signature_test_is_optimization (argv1 : Str)
    (ht : ∀ c ∈ argv1, isalpha c = true) :
    (∀ w : Str, w ≠ [] → (∀ c ∈ w, islower c = true) →
      counts_match (get_counts w) (get_counts (argv1.map tolower)) = true →
      get_bits w &&& get_bits (argv1.map tolower) = get_bits w) ∧
    (∀ dictionary,
      (∀ w, w ∈ (main argv1 dictionary).1 ↔ w ∈ (main_variant argv1 dictionary).1) ∧
      (main argv1 dictionary).2 = (main_variant argv1 dictionary).2) := by
  have hT := islower_tokens ht
  have key : ∀ w : Str, (∀ c ∈ w, islower c = true) →
      counts_match (get_counts w) (get_counts (argv1.map tolower)) = true →
      get_bits w &&& get_bits (argv1.map tolower) = get_bits w := fun w hw hm =>
    get_bits_subset_of_count_le hw hT (count_le_of_counts_match hm)
  refine ⟨fun w _ hw hm => key w hw hm, fun dictionary => ?_⟩
  have hmem : ∀ w, w ∈ (main argv1 dictionary).1 ↔ w ∈ (main_variant argv1 dictionary).1 := by
    intro w
    rw [mem_main, mem_main_variant]
    constructor
    · rintro ⟨⟨line, hl, hc⟩, h2, h3⟩
      rw [candidate_eq_some_iff] at hc
      obtain ⟨a1, a2, a3, a4, a5, -⟩ := hc
      exact ⟨⟨line, hl, (candidate_variant_eq_some_iff _ _ _).2 ⟨a1, a2, a3, a4, a5⟩⟩, h2, h3⟩
    · rintro ⟨⟨line, hl, hc⟩, h2, h3⟩
      rw [candidate_variant_eq_some_iff] at hc
      obtain ⟨a1, a2, a3, a4, a5⟩ := hc
      refine ⟨⟨line, hl, (candidate_eq_some_iff _ _ _ _).2 ⟨a1, a2, a3, a4, a5, ?_⟩⟩, h2, h3⟩
      apply key w _ h3
      subst a4
      exact islower_of_get_bits_ne_zero a5
  refine ⟨hmem, ?_⟩
  rw [main_total]
  unfold main_variant
  rw [print_words_total]
  exact ((List.perm_ext_iff_of_nodup (nodup_main argv1 dictionary)
    (nodup_main_variant argv1 dictionary)).2 hmem).length_eq

theorem C15_signature_test_is_optimization_witness :
    (∀ c ∈ str "aabc", isalpha c = true) ∧
    main_variant (str "aabc") [str "cab", str "aaa", str "dab"] = ([str "cab"], 1) ∧
    (main (str "aabc") [str "cab", str "aaa", str "dab"]).2
      = (main_variant (str "aabc") [str "cab", str "aaa", str "dab"]).2 :=
  ⟨by decide, by decide,
    ((C15_signature_test_is_optimization (str "aabc") (by decide)).2
      [str "cab", str "aaa", str "dab"]).2⟩

/-- C17 (bucket indexing in bounds) fails on the code.  With the tokens `cats`
and the dictionary line `cats`, the line passes every test of the reading
loop and line 141 inserts it in `words[4]`; `main` allocated
`tokens.length() = 4` hash sets, `words[0..3]`, and `print_words` walks the
indices below 4: the index 4 is one past the array, and the bucket that
receives the word is not walked. -/
theorem C17_bucket_index_out_of_bounds :
    candidate ((str "cats").map tolower).length (get_bits ((str "cats").map tolower))
      (str "cats") = some (str "cats") ∧
    (str "cats").length = 4 ∧ ((str "cats").map tolower).length = 4 ∧
    ¬ ((str "cats").length < ((str "cats").map tolower).length) ∧
    main_words (str "cats") [str "cats"] 4 = [str "cats"] ∧
    (∀ i, i < 4 → main_words (str "cats") [str "cats"] i = []) ∧
    (print_words ((str "cats").map tolower) (main_words (str "cats") [str "cats"])).1 = [] := by
  refine ⟨by decide, by decide, by decide, by decide, by decide, ?_, by decide⟩
  intro i hi
  interval_cases i <;> decide

theorem foldl_option_of_none {α β : Type} (F : Option α → β → Option α)
    (hn : ∀ x, F none x = none) {l : List β} {x : β} (hx : x ∈ l)
    (hf : ∀ a, F (some a) x = none) (init : Option α) : l.foldl F init = none := by
  obtain ⟨l1, l2, rfl⟩ := List.append_of_mem hx
  rw [List.foldl_append, List.foldl_cons]
  cases h : List.foldl F init l1 with
  | none => rw [hn, foldl_option_none F hn]
  | some a => rw [hf, foldl_option_none F hn]

/-- A character whose index is outside the 32 slots takes `get_counts`
outside its array. -/
theorem get_counts_checked_of_out_of_range {s : Str} {c : Nat} (hc : c ∈ s)
    (h : ¬ (0 ≤ char_index c ∧ char_index c < 32)) : get_counts_checked s = none := by
  have hlen : ∀ (l : List Nat) (init r : List Nat), init.length = 32 →
      l.foldl (fun (counts : Option (List Nat)) (c : Nat) =>
        counts.bind (fun cs => incr_checked cs (char_index c))) (some init) = some r →
      r.length = 32 := by
    intro l
    induction l with
    | nil =>
      intro init r h0 hr
      simp only [List.foldl_nil, Option.some.injEq] at hr
      rw [← hr]; exact h0
    | cons x xs ih =>
      intro init r h0 hr
      rw [List.foldl_cons] at hr
      cases hx : incr_checked init (char_index x) with
      | none =>
        simp only [Option.bind, hx] at hr
        rw [foldl_option_none _ (fun _ => rfl)] at hr
        cases hr
      | some a =>
        simp only [Option.bind, hx] at hr
        refine ih a r ?_ hr
        rw [incr_checked_eq hx, incr_length]
        exact h0
  cases hg : get_counts_checked s with
  | none => rfl
  | some r =>
    exfalso
    unfold get_counts_checked at hg
    obtain ⟨l1, l2, rfl⟩ := List.append_of_mem hc
    rw [List.foldl_append, List.foldl_cons] at hg
    cases h1 : List.foldl (fun (counts : Option (List Nat)) (c : Nat) =>
        counts.bind (fun cs => incr_checked cs (char_index c)))
        (some (List.replicate ALPHABET_LENGTH 0)) l1 with
    | none =>
      rw [h1] at hg
      simp only [Option.bind] at hg
      rw [foldl_option_none _ (fun _ => rfl)] at hg
      cases hg
    | some a =>
      rw [h1] at hg
      have ha : a.length = 32 := hlen l1 _ a (by simp [ALPHABET_LENGTH]) h1
      have e : (some a).bind (fun cs => incr_checked cs (char_index c)) = none := by
        simp only [Option.bind, incr_checked]
        rw [if_neg (by rw [ha]; exact h)]
      rw [e, foldl_option_none _ (fun _ => rfl)] at hg
      cases hg

/-- Tokens with a character whose index is outside the 32 slots take the
program outside the array `token_counts`. -/
theorem main_checked_of_out_of_range {argv1 : Str} {c : Nat} (hc : c ∈ argv1.map tolower)
    (h : ¬ (0 ≤ char_index c ∧ char_index c < 32)) (dictionary : List Str) :
    main_checked argv1 dictionary = none := by
  unfold main_checked
  simp only
  cases build_index_checked (argv1.map tolower).length (get_bits (argv1.map tolower))
      (argv1.map tolower).length dictionary with
  | none => rfl
  | some ws =>
    simp only [Option.bind, print_words_checked, get_counts_checked_of_out_of_range hc h]

/-- In a run inside the arrays the lengths of the words written never
decrease. -/
theorem main_checked_output_order {argv1 : Str} {dictionary : List Str} {r : List Str × Nat}
    (h : main_checked argv1 dictionary = some r) : (r.1.map List.length).Pairwise (· ≤ ·) := by
  rw [main_checked_eq h]
  exact (main_output_order argv1 dictionary).2.2

/-- Between two runs inside the arrays, the words written grow with the
letter counts of the tokens. -/
theorem main_checked_mono {t t2 : Str} (ht : ∀ c ∈ t, isalpha c = true)
    (ht2 : ∀ c ∈ t2, isalpha c = true)
    (h : ∀ c, islower c = true → (t.map tolower).count c ≤ (t2.map tolower).count c)
    {dictionary : List Str} {r r2 : List Str × Nat} (hr : main_checked t dictionary = some r)
    (hr2 : main_checked t2 dictionary = some r2) (w : Str) (hw : w ∈ r.1) : w ∈ r2.1 := by
  rw [main_checked_eq hr] at hw
  rw [main_checked_eq hr2]
  exact main_mono ht ht2 h dictionary w hw

/-- With tokens that are empty or hold a character that is not alphabetic,
the signature of the (lowercased) tokens is 0 and no line of any dictionary is
stored in the index. -/
theorem index_of_non_alphabetic_tokens (argv1 : Str) (dictionary : List Str)
    (h : argv1 = [] ∨ ∃ c ∈ argv1, isalpha c = false) :
    get_bits (argv1.map tolower) = 0 ∧
    (∀ line ∈ dictionary,
      candidate (argv1.map tolower).length (get_bits (argv1.map tolower)) line = none) ∧
    (∀ L, main_words argv1 dictionary L = []) := by
  have h0 : get_bits (argv1.map tolower) = 0 := (get_bits_eq_zero_iff argv1).2 h
  refine ⟨h0, ?_, ?_⟩
  · intro line _
    rw [h0]
    exact candidate_of_zero_bits_to_match _ _
  · intro L
    apply List.eq_nil_iff_forall_not_mem.2
    intro w hw
    rw [mem_main_words, h0] at hw
    obtain ⟨line, -, hc, -⟩ := hw
    rw [candidate_of_zero_bits_to_match] at hc
    cases hc

/-- C19 (tokens that are not alphabetic match nothing) fails on the code.
With the tokens `ca-t` (or `cat5`) the signature of the tokens is 0 and no
line of the dictionary is stored, as the claim says; but `print_words` then
calls `get_counts` on the tokens (line 67), and the character `-` has the
index 45 - 97 = -52, outside the 32 slots of `token_counts`: the run leaves
the array before a word or the total is written.  `get_bits` tests `isalpha`
before it uses a character as an index (line 44); `get_counts` has no test. -/
theorem C19_non_alphabetic_tokens_out_of_bounds :
    (∃ c ∈ str "ca-t", isalpha c = false) ∧
    get_bits ((str "ca-t").map tolower) = 0 ∧
    (∀ L, main_words (str "ca-t") example_dictionary L = []) ∧
    char_index 45 = -52 ∧
    get_counts_checked ((str "ca-t").map tolower) = none ∧
    main_checked (str "ca-t") example_dictionary = none ∧
    get_counts_checked ((str "cat5").map tolower) = none ∧
    main_checked (str "cat5") example_dictionary = none := by
  refine ⟨by decide, by decide, ?_, by decide, by decide, by decide, by decide, by decide⟩
  exact (index_of_non_alphabetic_tokens (str "ca-t") example_dictionary
    (Or.inr (by decide))).2.2

/-- C20 (monotonicity in the tokens) fails on the code.  The tokens `cats`
hold every letter of the tokens `cas` at least as often.  With the dictionary
`cat`, `cats`, `act`, `Cats`, `dog`, `ca's`, the run for `cas` stays inside its
arrays and writes the word `ca`; the run for `cats` stores the line `cats` in
`words[4]`, one past the four hash sets allocated at line 112, and leaves the
array `words`: it is not a run that writes `ca`.  (Monotonicity holds between
runs that stay inside the arrays.) -/
theorem C20_monotonicity_out_of_bounds :
    (∀ c ∈ str "cas", isalpha c = true) ∧ (∀ c ∈ str "cats", isalpha c = true) ∧
    (∀ c, islower c = true →
      ((str "cas").map tolower).count c ≤ ((str "cats").map tolower).count c) ∧
    main_checked (str "cas") example_dictionary = some ([str "ca"], 1) ∧
    candidate ((str "cats").map tolower).length (get_bits ((str "cats").map tolower))
      (str "cats") = some (str "cats") ∧
    (str "cats").length = ((str "cats").map tolower).length ∧
    main_checked (str "cats") example_dictionary = none := by
  refine ⟨by decide, by decide, ?_, by decide, by decide, by decide, by decide⟩
  intro c hc
  rw [islower_iff] at hc
  obtain ⟨h1, h2⟩ := hc
  interval_cases c <;> decide

end WordPlay
